import Mathlib

/-!
Verification of the recurring-event truncation and instance-matching engine
of the gogcli calendar command, plus the Gmail attachment collector.

The attachment collector (`collectAttachments`) is embedded from
`internal/cmd` source. The calendar engine functions
(`parse`, `originalStartRange`, `matchesOriginalStart`, `recurrenceUntil`,
`truncateRecurrence`) are exercised by the repository's tests but their
implementation file is not part of the provided sources; they are modelled
from the specification, faithful to its words, and checked against the
test expectations recorded in `calendar_recurrence_test.go`.

Dates are proleptic-Gregorian triples `(year, month, day)`; instants are
such triples extended with a time of day. `dayNumber` maps a date to a
linear day count (days since 0400-03-01 BCE in the shifted reckoning used
below), which serves as the semantic measure for "one day before",
"next day" and second-level arithmetic.
-/

/-- Gregorian leap-year test. -/
def isLeap (y : Nat) : Bool :=
  (y % 4 == 0 && y % 100 != 0) || y % 400 == 0

/-- Number of days in month `m` of year `y` (months are 1-based). -/
def daysInMonth (y m : Nat) : Nat :=
  if m = 2 then (if isLeap y then 29 else 28)
  else if m = 4 ∨ m = 6 ∨ m = 9 ∨ m = 11 then 30
  else 31

/-- A `(year, month, day)` triple denotes a real calendar date. -/
def ValidDate : Nat × Nat × Nat → Prop
  | (y, m, d) => 1 ≤ m ∧ m ≤ 12 ∧ 1 ≤ d ∧ d ≤ daysInMonth y m

instance : DecidablePred ValidDate := fun (_, _, _) => by
  unfold ValidDate; infer_instance

/-- Linear day count of a Gregorian date (shifted so the result is a `Nat`
for every year `y ≥ 0`); consecutive dates map to consecutive numbers. -/
def daysFromCivil (y m d : Nat) : Nat :=
  ((if m ≤ 2 then y + 399 else y + 400) / 400) * 146097 +
    (((if m ≤ 2 then y + 399 else y + 400) % 400) * 365 +
     ((if m ≤ 2 then y + 399 else y + 400) % 400) / 4 -
     ((if m ≤ 2 then y + 399 else y + 400) % 400) / 100 +
     ((153 * ((m + 9) % 12) + 2) / 5 + d - 1))

/-- `dayNumber` on triples. -/
def dayNumber : Nat × Nat × Nat → Nat
  | (y, m, d) => daysFromCivil y m d

/-- The calendar date one day after `(y, m, d)`. -/
def nextDate : Nat × Nat × Nat → Nat × Nat × Nat
  | (y, m, d) =>
    if d < daysInMonth y m then (y, m, d + 1)
    else if m < 12 then (y, m + 1, 1)
    else (y + 1, 1, 1)

/-- The calendar date one day before `(y, m, d)` (truncates at 0000-01-01,
which is outside every range used below). -/
def predDate : Nat × Nat × Nat → Nat × Nat × Nat
  | (y, m, d) =>
    if 1 < d then (y, m, d - 1)
    else if 1 < m then (y, m - 1, daysInMonth y (m - 1))
    else (y - 1, 12, 31)

theorem daysInMonth_pos (y m : Nat) : 28 ≤ daysInMonth y m := by
  unfold daysInMonth
  split_ifs <;> omega

theorem dfc_within (y m d : Nat) (h3 : 1 ≤ d) :
    daysFromCivil y m (d + 1) = daysFromCivil y m d + 1 := by
  simp only [daysFromCivil]
  split_ifs <;> omega

theorem isLeap_eq_true_iff (y : Nat) :
    isLeap y = true ↔ ((y % 4 = 0 ∧ ¬ y % 100 = 0) ∨ y % 400 = 0) := by
  simp [isLeap]

theorem dfc_feb (y : Nat) :
    daysFromCivil y 3 1 = daysFromCivil y 2 (daysInMonth y 2) + 1 := by
  have hiff := isLeap_eq_true_iff y
  simp only [daysInMonth, if_pos rfl]
  cases hl : isLeap y with
  | true =>
    have hy := hiff.mp hl
    simp only [if_pos rfl, daysFromCivil]
    norm_num
    omega
  | false =>
    have hy : ¬ ((y % 4 = 0 ∧ ¬ y % 100 = 0) ∨ y % 400 = 0) := fun hc =>
      by simp [hiff.mpr hc] at hl
    simp only [daysFromCivil]
    norm_num
    omega

theorem dfc_month (y m : Nat) (h1 : 1 ≤ m) (h2 : m < 12) :
    daysFromCivil y (m + 1) 1 = daysFromCivil y m (daysInMonth y m) + 1 := by
  by_cases hm : m = 2
  · subst hm; exact dfc_feb y
  · simp only [daysFromCivil, daysInMonth]
    interval_cases m <;> norm_num <;> omega

theorem dfc_year (y : Nat) :
    daysFromCivil (y + 1) 1 1 = daysFromCivil y 12 31 + 1 := by
  simp only [daysFromCivil]
  norm_num
  omega

/-- Stepping a valid date forward with `nextDate` increments `dayNumber`. -/
theorem dayNumber_nextDate (t : Nat × Nat × Nat) (h : ValidDate t) :
    dayNumber (nextDate t) = dayNumber t + 1 := by
  obtain ⟨y, m, d⟩ := t
  obtain ⟨h1, h2, h3, h4⟩ := h
  simp only [nextDate, dayNumber]
  split_ifs with hd hm
  · exact dfc_within y m d h3
  · have : d = daysInMonth y m := by omega
    subst this
    exact dfc_month y m h1 hm
  · have hm12 : m = 12 := by omega
    subst hm12
    have h12 : daysInMonth y 12 = 31 := rfl
    have hd31 : d = 31 := by omega
    subst hd31
    exact dfc_year y

/-- Stepping a valid date (other than 0000-01-01) backward with `predDate`
decrements `dayNumber`. -/
theorem dayNumber_predDate (t : Nat × Nat × Nat) (h : ValidDate t)
    (h0 : t ≠ (0, 1, 1)) :
    dayNumber (predDate t) + 1 = dayNumber t := by
  obtain ⟨y, m, d⟩ := t
  obtain ⟨h1, h2, h3, h4⟩ := h
  simp only [predDate]
  split_ifs with hd hm
  · show daysFromCivil y m (d - 1) + 1 = daysFromCivil y m d
    have := dfc_within y m (d - 1) (by omega)
    have hdd : d - 1 + 1 = d := by omega
    rw [hdd] at this
    omega
  · show daysFromCivil y (m - 1) (daysInMonth y (m - 1)) + 1 = daysFromCivil y m d
    have := dfc_month y (m - 1) (by omega) (by omega)
    have hmm : m - 1 + 1 = m := by omega
    rw [hmm] at this
    have hdd : d = 1 := by omega
    subst hdd
    omega
  · have hm1 : m = 1 := by omega
    have hd1 : d = 1 := by omega
    subst hm1; subst hd1
    show daysFromCivil (y - 1) 12 31 + 1 = daysFromCivil y 1 1
    have hy : y ≠ 0 := fun hy0 => h0 (by rw [hy0])
    have := dfc_year (y - 1)
    have hyy : y - 1 + 1 = y := by omega
    rw [hyy] at this
    omega

/-- `nextDate` preserves date validity. -/
theorem validDate_nextDate (t : Nat × Nat × Nat) (h : ValidDate t) :
    ValidDate (nextDate t) := by
  obtain ⟨y, m, d⟩ := t
  obtain ⟨h1, h2, h3, h4⟩ := h
  simp only [nextDate]
  split_ifs with hd hm
  · exact ⟨h1, h2, by omega, by omega⟩
  · exact ⟨by omega, by omega, by omega, by have := daysInMonth_pos y (m + 1); omega⟩
  · exact ⟨by omega, by omega, by omega, by have := daysInMonth_pos (y + 1) 1; omega⟩

/-- `predDate` preserves date validity. -/
theorem validDate_predDate (t : Nat × Nat × Nat) (h : ValidDate t) :
    ValidDate (predDate t) := by
  obtain ⟨y, m, d⟩ := t
  obtain ⟨h1, h2, h3, h4⟩ := h
  simp only [predDate]
  split_ifs with hd hm
  · exact ⟨h1, h2, by omega, by omega⟩
  · exact ⟨by omega, by omega, by have := daysInMonth_pos y (m - 1); omega, by omega⟩
  · have h12 : daysInMonth (y - 1) 12 = 31 := rfl
    exact ⟨by omega, by omega, by omega, by omega⟩

/-! ### Token text: digits and the two supported timestamp patterns -/

/-- Numeric value of a digit character. -/
def digitVal (c : Char) : Nat := c.toNat - 48

/-- Two-digit field value. -/
def num2 (a b : Char) : Nat := digitVal a * 10 + digitVal b

/-- Four-digit field value. -/
def num4 (a b c d : Char) : Nat :=
  digitVal a * 1000 + digitVal b * 100 + digitVal c * 10 + digitVal d

/-- Modelled from the spec: the bare `YYYY-MM-DD` date pattern of a calendar
timestamp token (the implementation of the calendar engine is not among the
provided sources; only its tests are). The digits must denote a real
calendar date. -/
def parseDate (cs : List Char) : Option (Nat × Nat × Nat) :=
  match cs with
  | [y1, y2, y3, y4, s1, m1, m2, s2, d1, d2] =>
    if y1.isDigit ∧ y2.isDigit ∧ y3.isDigit ∧ y4.isDigit ∧ s1 = '-' ∧
       m1.isDigit ∧ m2.isDigit ∧ s2 = '-' ∧ d1.isDigit ∧ d2.isDigit ∧
       ValidDate (num4 y1 y2 y3 y4, num2 m1 m2, num2 d1 d2)
    then some (num4 y1 y2 y3 y4, num2 m1 m2, num2 d1 d2)
    else none
  | _ => none

/-- Modelled from the spec: the offset tail of an RFC-3339 date-time, either
the literal `Z` or a signed `HH:MM` offset, returned in minutes. -/
def parseOffset (cs : List Char) : Option Int :=
  match cs with
  | ['Z'] => some 0
  | [sg, h1, h2, c1, m1, m2] =>
    if (sg = '+' ∨ sg = '-') ∧ h1.isDigit ∧ h2.isDigit ∧ c1 = ':' ∧
       m1.isDigit ∧ m2.isDigit ∧ num2 h1 h2 ≤ 23 ∧ num2 m1 m2 ≤ 59
    then some (if sg = '+' then (num2 h1 h2 * 60 + num2 m1 m2 : Int)
               else -(num2 h1 h2 * 60 + num2 m1 m2 : Int))
    else none
  | _ => none

/-- Modelled from the spec: optional fractional seconds (a point followed by
at least one digit) are accepted and discarded. -/
def dropFraction (cs : List Char) : List Char :=
  match cs with
  | '.' :: c :: rest =>
    if c.isDigit then (c :: rest).dropWhile Char.isDigit
    else '.' :: c :: rest
  | _ => cs

/-- Modelled from the spec: the RFC-3339 date-time pattern
`YYYY-MM-DDTHH:MM:SS[.frac](Z|+HH:MM|-HH:MM)`; a token without an explicit
offset does not match. Returns the wall-clock fields and offset minutes. -/
def parseDateTime (cs : List Char) :
    Option (Nat × Nat × Nat × Nat × Nat × Nat × Int) :=
  match cs with
  | y1 :: y2 :: y3 :: y4 :: s1 :: m1 :: m2 :: s2 :: d1 :: d2 :: tt ::
      h1 :: h2 :: c1 :: mi1 :: mi2 :: c2 :: ss1 :: ss2 :: rest =>
    match parseOffset (dropFraction rest) with
    | none => none
    | some off =>
      if y1.isDigit ∧ y2.isDigit ∧ y3.isDigit ∧ y4.isDigit ∧ s1 = '-' ∧
         m1.isDigit ∧ m2.isDigit ∧ s2 = '-' ∧ d1.isDigit ∧ d2.isDigit ∧
         tt = 'T' ∧ h1.isDigit ∧ h2.isDigit ∧ c1 = ':' ∧
         mi1.isDigit ∧ mi2.isDigit ∧ c2 = ':' ∧ ss1.isDigit ∧ ss2.isDigit ∧
         ValidDate (num4 y1 y2 y3 y4, num2 m1 m2, num2 d1 d2) ∧
         num2 h1 h2 ≤ 23 ∧ num2 mi1 mi2 ≤ 59 ∧ num2 ss1 ss2 ≤ 59
      then some (num4 y1 y2 y3 y4, num2 m1 m2, num2 d1 d2,
                 num2 h1 h2, num2 mi1 mi2, num2 ss1 ss2, off)
      else none
  | _ => none

/-- Modelled from the spec: a calendar timestamp is either a bare calendar
date or a zoned instant (wall-clock fields plus explicit offset minutes). -/
inductive CalendarTimestamp where
  | dateOnly (y m d : Nat)
  | zoned (y m d hh mi ss : Nat) (offMin : Int)
deriving DecidableEq, Repr

/-- Modelled from the spec: the engine's deterministic validation failures,
carrying the offending raw text. -/
inductive EngineError where
  | malformedTimestamp (raw : String)
  | malformedRecurrenceLine (raw : String)
deriving DecidableEq, Repr

/-- Modelled from the spec: `parse(token)` matches the bare-date pattern or
the RFC-3339 pattern and fails with `MalformedTimestamp` otherwise. -/
def parse (tok : String) : Except EngineError CalendarTimestamp :=
  match parseDate tok.data with
  | some (y, m, d) => .ok (.dateOnly y m d)
  | none =>
    match parseDateTime tok.data with
    | some (y, m, d, hh, mi, ss, off) => .ok (.zoned y m d hh mi ss off)
    | none => .error (.malformedTimestamp tok)

theorem digit_toNat_bounds (c : Char) (h : c.isDigit = true) :
    48 ≤ c.toNat ∧ c.toNat ≤ 57 := by
  simp only [Char.isDigit, Bool.and_eq_true, decide_eq_true_eq] at h
  obtain ⟨h1, h2⟩ := h
  exact ⟨UInt32.le_toNat_of_le (by norm_num [UInt32.size]) h1,
         UInt32.toNat_le_of_le (by norm_num [UInt32.size]) h2⟩

theorem digitVal_le (c : Char) (h : c.isDigit = true) : digitVal c ≤ 9 := by
  have := digit_toNat_bounds c h
  simp only [digitVal]
  omega

/-- Bounds extracted from a successful bare-date parse. -/
theorem parseDate_valid (cs : List Char) (y m d : Nat)
    (h : parseDate cs = some (y, m, d)) : ValidDate (y, m, d) ∧ y ≤ 9999 := by
  unfold parseDate at h
  split at h
  case _ y1 y2 y3 y4 s1 m1 m2 s2 d1 d2 =>
    split at h
    case isTrue hc =>
      obtain ⟨c1, c2, c3, c4, -, -, -, -, -, -, hv⟩ := hc
      injection h with h
      rw [Prod.mk.injEq, Prod.mk.injEq] at h
      obtain ⟨rfl, rfl, rfl⟩ := h
      refine ⟨hv, ?_⟩
      have := digitVal_le y1 c1
      have := digitVal_le y2 c2
      have := digitVal_le y3 c3
      have := digitVal_le y4 c4
      unfold num4
      omega
    case isFalse => exact absurd h (by simp)
  case _ => exact absurd h (by simp)

/-- Bounds extracted from a successful offset parse: at most ±23:59. -/
theorem parseOffset_bounds (cs : List Char) (off : Int)
    (h : parseOffset cs = some off) : -1439 ≤ off ∧ off ≤ 1439 := by
  unfold parseOffset at h
  split at h
  · injection h with h
    omega
  case _ sg h1 h2 c1 m1 m2 =>
    split at h
    case isTrue hc =>
      obtain ⟨-, -, -, -, -, -, hh, hm⟩ := hc
      injection h with h
      split at h <;> omega
    case isFalse => exact absurd h (by simp)
  case _ => exact absurd h (by simp)

/-- Bounds extracted from a successful RFC-3339 parse. -/
theorem parseDateTime_valid (cs : List Char) (y m d hh mi ss : Nat) (off : Int)
    (h : parseDateTime cs = some (y, m, d, hh, mi, ss, off)) :
    ValidDate (y, m, d) ∧ y ≤ 9999 ∧ hh ≤ 23 ∧ mi ≤ 59 ∧ ss ≤ 59 ∧
      -1439 ≤ off ∧ off ≤ 1439 := by
  unfold parseDateTime at h
  split at h
  case _ y1 y2 y3 y4 s1 m1 m2 s2 d1 d2 tt h1 h2 c1 mi1 mi2 c2 ss1 ss2 rest =>
    split at h
    case _ => exact absurd h (by simp)
    case _ off2 hoff =>
      split at h
      case isTrue hc =>
        obtain ⟨c1, c2, c3, c4, -, -, -, -, -, -, -, -, -, -, -, -, -, -, -,
          hv, hhh, hmi, hss⟩ := hc
        injection h with h
        rw [Prod.mk.injEq, Prod.mk.injEq, Prod.mk.injEq, Prod.mk.injEq,
          Prod.mk.injEq, Prod.mk.injEq] at h
        obtain ⟨rfl, rfl, rfl, rfl, rfl, rfl, rfl⟩ := h
        have hob := parseOffset_bounds _ _ hoff
        have := digitVal_le y1 c1
        have := digitVal_le y2 c2
        have := digitVal_le y3 c3
        have := digitVal_le y4 c4
        refine ⟨hv, by unfold num4; omega, hhh, hmi, hss, hob.1, hob.2⟩
      case isFalse => exact absurd h (by simp)
  case _ => exact absurd h (by simp)

/-! ### UTC instants, normalization and second arithmetic -/

/-- A normalized UTC date-time at seconds precision. -/
structure UtcDateTime where
  year : Nat
  month : Nat
  day : Nat
  hour : Nat
  minute : Nat
  second : Nat
deriving DecidableEq, Repr

/-- A date triple together with a time of day, as a `UtcDateTime`. -/
def withTod (t : Nat × Nat × Nat) (hh mi ss : Nat) : UtcDateTime :=
  ⟨t.1, t.2.1, t.2.2, hh, mi, ss⟩

theorem withTod_def (a b c hh mi ss : Nat) :
    withTod (a, b, c) hh mi ss = ⟨a, b, c, hh, mi, ss⟩ := rfl

/-- A UTC date-time whose fields are all in range. -/
def ValidUtc (u : UtcDateTime) : Prop :=
  ValidDate (u.year, u.month, u.day) ∧ u.hour ≤ 23 ∧ u.minute ≤ 59 ∧ u.second ≤ 59

theorem validUtc_def (y m d hh mi ss : Nat) :
    ValidUtc ⟨y, m, d, hh, mi, ss⟩ ↔
      (ValidDate (y, m, d) ∧ hh ≤ 23 ∧ mi ≤ 59 ∧ ss ≤ 59) := Iff.rfl

/-- Absolute second count of a UTC date-time (the semantic measure for
instants; two `UtcDateTime`s denote the same instant iff these agree). -/
def utcSeconds (u : UtcDateTime) : Nat :=
  dayNumber (u.year, u.month, u.day) * 86400 +
    u.hour * 3600 + u.minute * 60 + u.second

theorem utcSeconds_def (y m d hh mi ss : Nat) :
    utcSeconds ⟨y, m, d, hh, mi, ss⟩ =
      dayNumber (y, m, d) * 86400 + hh * 3600 + mi * 60 + ss := rfl

/-- Absolute second count denoted by zoned wall-clock fields with an offset:
the wall-clock seconds minus the offset. -/
def zonedSecondsOf (y m d hh mi ss : Nat) (off : Int) : Int :=
  (dayNumber (y, m, d) * 86400 + hh * 3600 + mi * 60 + ss : Nat) - off * 60

/-- Modelled from the spec: normalize zoned wall-clock fields to UTC by
subtracting the offset; at most one calendar-day borrow or carry is needed
because offsets are smaller than a day. -/
def normalizeZoned (y m d hh mi ss : Nat) (off : Int) : UtcDateTime :=
  let t : Int := (hh * 60 + mi : Nat) - off
  if t < 0 then
    withTod (predDate (y, m, d)) ((t + 1440).toNat / 60) ((t + 1440).toNat % 60) ss
  else if t < 1440 then
    ⟨y, m, d, t.toNat / 60, t.toNat % 60, ss⟩
  else
    withTod (nextDate (y, m, d)) ((t - 1440).toNat / 60) ((t - 1440).toNat % 60) ss

/-- The UTC date-time one second later (the carry chain of a one-second
step at the end of a minute, hour or day). -/
def succSecond (u : UtcDateTime) : UtcDateTime :=
  if u.second < 59 then ⟨u.year, u.month, u.day, u.hour, u.minute, u.second + 1⟩
  else if u.minute < 59 then ⟨u.year, u.month, u.day, u.hour, u.minute + 1, 0⟩
  else if u.hour < 23 then ⟨u.year, u.month, u.day, u.hour + 1, 0, 0⟩
  else withTod (nextDate (u.year, u.month, u.day)) 0 0 0

theorem succSecond_def (y m d hh mi ss : Nat) :
    succSecond ⟨y, m, d, hh, mi, ss⟩ =
      (if ss < 59 then (⟨y, m, d, hh, mi, ss + 1⟩ : UtcDateTime)
       else if mi < 59 then ⟨y, m, d, hh, mi + 1, 0⟩
       else if hh < 23 then ⟨y, m, d, hh + 1, 0, 0⟩
       else withTod (nextDate (y, m, d)) 0 0 0) := rfl

/-- `succSecond` adds exactly one second to the absolute second count. -/
theorem utcSeconds_succSecond (u : UtcDateTime) (h : ValidUtc u) :
    utcSeconds (succSecond u) = utcSeconds u + 1 := by
  obtain ⟨y, m, d, hh, mi, ss⟩ := u
  rw [validUtc_def] at h
  obtain ⟨hv, h1, h2, h3⟩ := h
  rw [succSecond_def]
  split_ifs with hs hm hhle
  · rw [utcSeconds_def, utcSeconds_def]; omega
  · rw [utcSeconds_def, utcSeconds_def]; omega
  · rw [utcSeconds_def, utcSeconds_def]; omega
  · have hn := dayNumber_nextDate (y, m, d) hv
    obtain ⟨ny, nm, nd, he⟩ : ∃ a b c, nextDate (y, m, d) = (a, b, c) :=
      ⟨_, _, _, rfl⟩
    rw [he] at hn ⊢
    rw [withTod_def, utcSeconds_def, utcSeconds_def]
    omega

/-- `succSecond` preserves field validity. -/
theorem validUtc_succSecond (u : UtcDateTime) (h : ValidUtc u) :
    ValidUtc (succSecond u) := by
  obtain ⟨y, m, d, hh, mi, ss⟩ := u
  rw [validUtc_def] at h
  obtain ⟨hv, h1, h2, h3⟩ := h
  rw [succSecond_def]
  split_ifs with hs hm hhle
  · exact (validUtc_def ..).mpr ⟨hv, by omega, by omega, by omega⟩
  · exact (validUtc_def ..).mpr ⟨hv, by omega, by omega, by omega⟩
  · exact (validUtc_def ..).mpr ⟨hv, by omega, by omega, by omega⟩
  · have hn := validDate_nextDate (y, m, d) hv
    obtain ⟨ny, nm, nd, he⟩ : ∃ a b c, nextDate (y, m, d) = (a, b, c) :=
      ⟨_, _, _, rfl⟩
    rw [he] at hn ⊢
    rw [withTod_def]
    exact (validUtc_def ..).mpr ⟨hn, by omega, by omega, by omega⟩

/-- Normalization yields in-range fields. -/
theorem validUtc_normalizeZoned (y m d hh mi ss : Nat) (off : Int)
    (hv : ValidDate (y, m, d)) (h1 : hh ≤ 23) (h2 : mi ≤ 59) (h3 : ss ≤ 59)
    (ho1 : -1439 ≤ off) (ho2 : off ≤ 1439) :
    ValidUtc (normalizeZoned y m d hh mi ss off) := by
  unfold normalizeZoned
  dsimp only
  split_ifs with hneg hsmall
  · obtain ⟨py, pm, pd, he⟩ : ∃ a b c, predDate (y, m, d) = (a, b, c) :=
      ⟨_, _, _, rfl⟩
    have hp := validDate_predDate (y, m, d) hv
    rw [he] at hp ⊢
    rw [withTod_def]
    exact (validUtc_def ..).mpr ⟨hp, by omega, by omega, by omega⟩
  · exact (validUtc_def ..).mpr ⟨hv, by omega, by omega, by omega⟩
  · obtain ⟨ny, nm, nd, he⟩ : ∃ a b c, nextDate (y, m, d) = (a, b, c) :=
      ⟨_, _, _, rfl⟩
    have hn := validDate_nextDate (y, m, d) hv
    rw [he] at hn ⊢
    rw [withTod_def]
    exact (validUtc_def ..).mpr ⟨hn, by omega, by omega, by omega⟩

/-- Normalization preserves the denoted instant: the absolute second count
of the normalized UTC date-time equals the zoned second count, for in-range
fields and an offset of at most a day, away from the calendar's zero
point. -/
theorem utcSeconds_normalizeZoned (y m d hh mi ss : Nat) (off : Int)
    (hv : ValidDate (y, m, d)) (h1 : hh ≤ 23) (h2 : mi ≤ 59) (h3 : ss ≤ 59)
    (ho1 : -1439 ≤ off) (ho2 : off ≤ 1439) (h0 : ¬(y = 0 ∧ m = 1 ∧ d = 1)) :
    (utcSeconds (normalizeZoned y m d hh mi ss off) : Int) =
      zonedSecondsOf y m d hh mi ss off := by
  unfold normalizeZoned zonedSecondsOf
  dsimp only
  split_ifs with hneg hsmall
  · obtain ⟨py, pm, pd, he⟩ : ∃ a b c, predDate (y, m, d) = (a, b, c) :=
      ⟨_, _, _, rfl⟩
    have hp := dayNumber_predDate (y, m, d) hv (by
      intro hc
      rw [Prod.mk.injEq, Prod.mk.injEq] at hc
      exact h0 ⟨hc.1, hc.2.1, hc.2.2⟩)
    rw [he] at hp ⊢
    rw [withTod_def, utcSeconds_def]
    push_cast
    omega
  · rw [utcSeconds_def]
    push_cast
    omega
  · obtain ⟨ny, nm, nd, he⟩ : ∃ a b c, nextDate (y, m, d) = (a, b, c) :=
      ⟨_, _, _, rfl⟩
    have hn := dayNumber_nextDate (y, m, d) hv
    rw [he] at hn ⊢
    rw [withTod_def, utcSeconds_def]
    push_cast
    omega

/-! ### Rendering -/

/-- The decimal digit character for `n % 10`. -/
def digitChar (n : Nat) : Char := Char.ofNat (48 + n % 10)

/-- Two-digit zero-padded decimal rendering. -/
def pad2 (n : Nat) : String := ⟨[digitChar (n / 10), digitChar n]⟩

/-- Four-digit zero-padded decimal rendering. -/
def pad4 (n : Nat) : String :=
  ⟨[digitChar (n / 1000), digitChar (n / 100), digitChar (n / 10), digitChar n]⟩

/-- Compact 8-digit `YYYYMMDD` rendering of a date. -/
def renderCompactDate (y m d : Nat) : String := pad4 y ++ pad2 m ++ pad2 d

/-- RFC-3339 UTC rendering `YYYY-MM-DDTHH:MM:SSZ` of a UTC date-time. -/
def renderRFC (u : UtcDateTime) : String :=
  pad4 u.year ++ "-" ++ pad2 u.month ++ "-" ++ pad2 u.day ++ "T" ++
    pad2 u.hour ++ ":" ++ pad2 u.minute ++ ":" ++ pad2 u.second ++ "Z"

/-- Compact `YYYYMMDDTHHMMSSZ` rendering of a UTC date-time. -/
def renderCompactZ (u : UtcDateTime) : String :=
  pad4 u.year ++ pad2 u.month ++ pad2 u.day ++ "T" ++
    pad2 u.hour ++ pad2 u.minute ++ pad2 u.second ++ "Z"

/-! ### The engine's timestamp operations -/

/-- Modelled from the spec: the structured value denoted by a timestamp's
`UNTIL` text — the UTC-normalized instant for a zoned cutoff, and the date
one calendar day earlier for a date-only cutoff. -/
def untilTimestamp : CalendarTimestamp → CalendarTimestamp
  | .dateOnly y m d =>
    (fun t => CalendarTimestamp.dateOnly t.1 t.2.1 t.2.2) (predDate (y, m, d))
  | .zoned y m d hh mi ss off =>
    (fun u => CalendarTimestamp.zoned u.year u.month u.day u.hour u.minute
      u.second 0) (normalizeZoned y m d hh mi ss off)

/-- Modelled from the spec: `toUntilText` renders a timestamp in the compact
form recurrence rules use for `UNTIL` — 8-digit date (one day subtracted)
for a date-only value, compact UTC seconds with a trailing `Z` for a zoned
value. -/
def toUntilText (ts : CalendarTimestamp) : String :=
  match untilTimestamp ts with
  | .dateOnly y m d => renderCompactDate y m d
  | .zoned y m d hh mi ss _ =>
    renderCompactDate y m d ++ "T" ++ pad2 hh ++ pad2 mi ++ pad2 ss ++ "Z"

/-- Modelled from the spec: the calendar date component of a timestamp,
regardless of variant (for a zoned value, the date of the UTC-normalized
instant). -/
def dateOnlyComparable : CalendarTimestamp → Nat × Nat × Nat
  | .dateOnly y m d => (y, m, d)
  | .zoned y m d hh mi ss off =>
    (fun u => (u.year, u.month, u.day)) (normalizeZoned y m d hh mi ss off)

/-- Modelled from the spec: `recurrenceUntil(cutoffToken)` is
`parse(cutoffToken).toUntilText()`. -/
def recurrenceUntil (tok : String) : Except EngineError String :=
  (parse tok).map toUntilText

/-- Modelled from the spec: `originalStartRange(token)` returns the
half-open query window `[min, max)` as RFC-3339 UTC instants — the instant
itself and one second later for a zoned token, the day's midnight and the
next day's midnight for a date-only token. -/
def originalStartRange (tok : String) : Except EngineError (String × String) :=
  match parse tok with
  | .error e => .error e
  | .ok (.dateOnly y m d) =>
    .ok (renderRFC ⟨y, m, d, 0, 0, 0⟩, renderRFC (withTod (nextDate (y, m, d)) 0 0 0))
  | .ok (.zoned y m d hh mi ss off) =>
    (fun u => .ok (renderRFC u, renderRFC (succSecond u)))
      (normalizeZoned y m d hh mi ss off)

example : parse "2025-01-02" = .ok (.dateOnly 2025 1 2) := rfl

example : parse "2025-01-02T10:00:00Z" = .ok (.zoned 2025 1 2 10 0 0 0) := rfl

example : parse "2025-01-02T10:00:00-08:00" =
    .ok (.zoned 2025 1 2 10 0 0 (-480)) := rfl

example : parse "2025-01-02T10:00:00.123Z" = .ok (.zoned 2025 1 2 10 0 0 0) := rfl

example : parse "2025-01-02T10:00:00" =
    .error (.malformedTimestamp "2025-01-02T10:00:00") := rfl

example : recurrenceUntil "2025-01-02" = .ok "20250101" := rfl

example : recurrenceUntil "2025-01-02T10:00:00Z" = .ok "20250102T100000Z" := rfl

example : recurrenceUntil "2025-01-02T01:00:00+02:00" = .ok "20250101T230000Z" := rfl

example : originalStartRange "2025-01-02T10:00:00Z" =
    .ok ("2025-01-02T10:00:00Z", "2025-01-02T10:00:01Z") := rfl

example : originalStartRange "2025-01-02" =
    .ok ("2025-01-02T00:00:00Z", "2025-01-03T00:00:00Z") := rfl

example : originalStartRange "2025-01-02T10:00:00-08:00" =
    .ok ("2025-01-02T18:00:00Z", "2025-01-02T18:00:01Z") := rfl

/-! ### The occurrence matcher -/

/-- Modelled from the spec: an event start field carrying either a date-only
or a zoned sub-field (empty string means unset, as in the service's API). -/
structure EventDateTime where
  date : String
  dateTime : String
deriving DecidableEq, Repr

/-- Modelled from the spec: the slice of a calendar event the matcher reads —
an optional original-start override and the event's own start field. -/
structure Event where
  originalStartTime : Option EventDateTime
  start : Option EventDateTime
deriving DecidableEq, Repr

/-- The populated sub-field of an event date-time, zoned preferred. -/
def edtToken (e : EventDateTime) : String :=
  if e.dateTime ≠ "" then e.dateTime else e.date

/-- Modelled from the spec: the event's effective original-start token —
the original-start override when populated, the start field otherwise,
empty when neither is usable. -/
def effectiveStartToken (ev : Event) : String :=
  let fromOrig := match ev.originalStartTime with
    | some o => edtToken o
    | none => ""
  if fromOrig ≠ "" then fromOrig
  else match ev.start with
    | some s => edtToken s
    | none => ""

/-- Is a timestamp the date-only variant? -/
def isDateOnlyTs : CalendarTimestamp → Bool
  | .dateOnly _ _ _ => true
  | .zoned _ _ _ _ _ _ _ => false

/-- The UTC date-time denoted by a timestamp (midnight for a date). -/
def normalizedUtc : CalendarTimestamp → UtcDateTime
  | .dateOnly y m d => ⟨y, m, d, 0, 0, 0⟩
  | .zoned y m d hh mi ss off => normalizeZoned y m d hh mi ss off

/-- Modelled from the spec: `matchesOriginalStart(event, token)` — parse the
event's effective token and the query token; if either side is date-only,
compare calendar dates via `dateOnlyComparable`, otherwise compare the
UTC-normalized instants; any failure yields `false`, never an error. -/
def matchesOriginalStart (ev : Event) (tok : String) : Bool :=
  let evTok := effectiveStartToken ev
  if evTok = "" then false
  else
    match parse evTok, parse tok with
    | .ok a, .ok b =>
      if isDateOnlyTs a || isDateOnlyTs b then
        dateOnlyComparable a == dateOnlyComparable b
      else
        normalizedUtc a == normalizedUtc b
    | _, _ => false

example :
    matchesOriginalStart
      ⟨some ⟨"", "2025-01-02T10:00:00Z"⟩, some ⟨"2025-01-02", ""⟩⟩
      "2025-01-02T10:00:00Z" = true := rfl

example :
    matchesOriginalStart
      ⟨some ⟨"", "2025-01-02T10:00:00Z"⟩, some ⟨"2025-01-02", ""⟩⟩
      "2025-01-02" = true := rfl

example : matchesOriginalStart ⟨none, none⟩ "2025-01-02" = false := rfl

/-! ### The recurrence truncator -/

/-- Split a character list on a separator (semantics of splitting a string
on a one-character separator: `n` separators yield `n + 1` groups). -/
def splitOnChar (sep : Char) : List Char → List (List Char)
  | [] => [[]]
  | c :: rest =>
    match splitOnChar sep rest with
    | [] => [[c]]
    | g :: gs => if c = sep then [] :: g :: gs else (c :: g) :: gs

/-- Modelled from the spec: split one `KEY=VALUE` chunk at its first `=`;
a chunk without `=` cannot be decomposed. -/
def chunkToPair (cs : List Char) : Option (String × String) :=
  let k := cs.takeWhile (fun x => x ≠ '=')
  if k.length = cs.length then none
  else some (⟨k⟩, ⟨cs.drop (k.length + 1)⟩)

/-- Modelled from the spec: set/replace a key in an ordered parameter
mapping, preserving the position of an existing key and appending a new
one. -/
def insertParam : List (String × String) → String → String → List (String × String)
  | [], k, v => [(k, v)]
  | (k0, v0) :: rest, k, v =>
    if k0 = k then (k, v) :: rest else (k0, v0) :: insertParam rest k v

/-- Modelled from the spec: remove a key from an ordered parameter
mapping. -/
def removeParam (ps : List (String × String)) (k : String) : List (String × String) :=
  ps.filter (fun p => p.1 != k)

/-- Fold the `;`-separated chunks of an RRULE payload into an ordered
mapping (later duplicates overwrite in place, as in a map insert). -/
def parseParamsAux : List (List Char) → List (String × String) →
    Option (List (String × String))
  | [], acc => some acc
  | c :: rest, acc =>
    match chunkToPair c with
    | none => none
    | some (k, v) => parseParamsAux rest (insertParam acc k v)

/-- Modelled from the spec: parse an RRULE payload into its ordered
parameter mapping; fails when a chunk has no `=`. -/
def parseParams (payload : List Char) : Option (List (String × String)) :=
  parseParamsAux (splitOnChar ';' payload) []

/-- Reserialize an ordered parameter mapping as `;`-joined `KEY=VALUE`. -/
def renderParams : List (String × String) → String
  | [] => ""
  | [p] => p.1 ++ "=" ++ p.2
  | p :: rest => p.1 ++ "=" ++ p.2 ++ ";" ++ renderParams rest

/-- Does the line carry the `RRULE` keyword? -/
def isRRuleLine (line : String) : Bool :=
  match line.data with
  | 'R' :: 'R' :: 'U' :: 'L' :: 'E' :: ':' :: _ => true
  | _ => false

/-- Modelled from the spec: rewrite one recurrence line — an `RRULE` line
has `COUNT` removed and `UNTIL` set to the given value (position preserved,
appended when absent); every other line is copied verbatim. -/
def truncateLine (untilVal : String) (line : String) : Except EngineError String :=
  if isRRuleLine line then
    match parseParams (line.data.drop 6) with
    | none => .error (.malformedRecurrenceLine line)
    | some ps =>
      .ok ("RRULE:" ++ renderParams (insertParam (removeParam ps "COUNT") "UNTIL" untilVal))
  else .ok line

/-- Apply a fallible line rewrite to every line, stopping at the first
error. -/
def mapLines (f : String → Except EngineError String) :
    List String → Except EngineError (List String)
  | [] => .ok []
  | l :: ls =>
    match f l with
    | .error e => .error e
    | .ok l2 =>
      match mapLines f ls with
      | .error e => .error e
      | .ok ls2 => .ok (l2 :: ls2)

/-- Modelled from the spec: `truncateRecurrence(lines, cutoffToken)` —
compute the `UNTIL` value from the cutoff token and rewrite every line
with `truncateLine`. -/
def truncateRecurrence (lines : List String) (cutoff : String) :
    Except EngineError (List String) :=
  match recurrenceUntil cutoff with
  | .error e => .error e
  | .ok untilVal => mapLines (truncateLine untilVal) lines

example :
    truncateRecurrence ["RRULE:FREQ=DAILY;COUNT=10", "EXDATE:20250103T100000Z"]
      "2025-01-05T10:00:00Z" =
    .ok ["RRULE:FREQ=DAILY;UNTIL=20250105T100000Z", "EXDATE:20250103T100000Z"] := rfl

example :
    truncateRecurrence ["RRULE:FREQ=DAILY;UNTIL=20240101;INTERVAL=2"]
      "2025-01-02" =
    .ok ["RRULE:FREQ=DAILY;UNTIL=20250101;INTERVAL=2"] := rfl

example :
    truncateRecurrence ["RRULE:FREQ"] "2025-01-02" =
    .error (.malformedRecurrenceLine "RRULE:FREQ") := rfl

/-! ### Recurrence semantics of the UNTIL bound -/

/-- Modelled from the spec's glossary: `UNTIL` is an inclusive bound — an
occurrence is admitted by the truncated rule iff its start is at or before
the bound; a date-only bound compares by calendar date. -/
def untilAdmits : CalendarTimestamp → UtcDateTime → Bool
  | .dateOnly y m d, occ =>
    decide (dayNumber (occ.year, occ.month, occ.day) ≤ dayNumber (y, m, d))
  | .zoned y m d hh mi ss _, occ =>
    decide (utcSeconds occ ≤ utcSeconds ⟨y, m, d, hh, mi, ss⟩)

/-- The occurrence at UTC date-time `occ` is at or after the cutoff. -/
def cutoffLE (cut : CalendarTimestamp) (occ : UtcDateTime) : Bool :=
  match cut with
  | .dateOnly y m d =>
    decide (dayNumber (y, m, d) ≤ dayNumber (occ.year, occ.month, occ.day))
  | .zoned y m d hh mi ss off =>
    decide (utcSeconds (normalizeZoned y m d hh mi ss off) ≤ utcSeconds occ)

/-- The occurrence at UTC date-time `occ` is strictly after the cutoff. -/
def cutoffLT (cut : CalendarTimestamp) (occ : UtcDateTime) : Bool :=
  match cut with
  | .dateOnly y m d =>
    decide (dayNumber (y, m, d) < dayNumber (occ.year, occ.month, occ.day))
  | .zoned y m d hh mi ss off =>
    decide (utcSeconds (normalizeZoned y m d hh mi ss off) < utcSeconds occ)

/-! ### Gmail attachment collection (embedded from `internal/cmd` source) -/

/-- The body of a Gmail message part: attachment id and size
(`gmail.MessagePartBody`). -/
structure MessagePartBody where
  attachmentId : String
  size : Int
deriving DecidableEq, Repr

/-- A Gmail message part: filename, MIME type, optional body and sub-parts
(`gmail.MessagePart`); sub-part pointers may be nil. -/
inductive MessagePart where
  | mk (filename : String) (mimeType : String) (body : Option MessagePartBody)
       (parts : List (Option MessagePart))

/-- One collected attachment (`attachmentInfo` in the source). -/
structure attachmentInfo where
  Filename : String
  Size : Int
  MimeType : String
  AttachmentID : String
deriving DecidableEq, Repr

def MessagePart.filename : MessagePart → String
  | .mk f _ _ _ => f

def MessagePart.mimeType : MessagePart → String
  | .mk _ mt _ _ => mt

def MessagePart.body : MessagePart → Option MessagePartBody
  | .mk _ _ b _ => b

def MessagePart.parts : MessagePart → List (Option MessagePart)
  | .mk _ _ _ ps => ps

/-- The Unicode White_Space property, the character class behind the
source's `strings.TrimSpace` (Go `unicode.IsSpace`): U+0009 to U+000D,
space, U+0085, U+00A0, U+1680, U+2000 to U+200A, U+2028, U+2029, U+202F,
U+205F and U+3000. -/
def isUnicodeSpace (c : Char) : Bool :=
  decide ((9 ≤ c.toNat ∧ c.toNat ≤ 13) ∨ c.toNat = 32 ∨ c.toNat = 133 ∨
    c.toNat = 160 ∨ c.toNat = 5760 ∨ (8192 ≤ c.toNat ∧ c.toNat ≤ 8202) ∨
    c.toNat = 8232 ∨ c.toNat = 8233 ∨ c.toNat = 8239 ∨ c.toNat = 8287 ∨
    c.toNat = 12288)

mutual

/-- Embedded from the source: `collectAttachments` returns nil for a nil
part, emits an entry when the part's body carries a non-empty attachment id
(substituting the filename `attachment` when the part's filename trims to
empty; `strings.TrimSpace` trims exactly the Unicode White_Space
characters, `isUnicodeSpace`), then recurses into the sub-parts in
order. -/
def collectAttachments : Option MessagePart → List attachmentInfo
  | none => []
  | some p => collectPart p

/-- The body of the source's loop for one non-nil part. -/
def collectPart : MessagePart → List attachmentInfo
  | .mk filename mimeType body parts =>
    (match body with
     | some b =>
       if b.attachmentId ≠ "" then
         [⟨if (filename.data.all isUnicodeSpace) then "attachment" else filename,
           b.size, mimeType, b.attachmentId⟩]
       else []
     | none => []) ++ collectParts parts

/-- The source's `for _, part := range p.Parts` recursion. -/
def collectParts : List (Option MessagePart) → List attachmentInfo
  | [] => []
  | p :: rest => collectAttachments p ++ collectParts rest

end

mutual

/-- Claim-side definition: the depth-first pre-order node list of a
(possibly nil) message-part tree — each part before its sub-parts,
sub-parts in list order. -/
def preorderOpt : Option MessagePart → List MessagePart
  | none => []
  | some p => preorderPart p

/-- Claim-side definition: pre-order of a non-nil part. -/
def preorderPart : MessagePart → List MessagePart
  | .mk filename mimeType body parts =>
    .mk filename mimeType body parts :: preorderParts parts

/-- Claim-side definition: pre-order of a sub-part list, in order. -/
def preorderParts : List (Option MessagePart) → List MessagePart
  | [] => []
  | p :: rest => preorderOpt p ++ preorderParts rest

end

/-- Claim-side definition: the entries contributed by a single part —
exactly one when its body carries a non-empty attachment id, with the
filename `attachment` substituted when the part's own filename is empty or
only whitespace (Unicode White_Space, as `strings.TrimSpace` trims), and
none otherwise. -/
def partEntry (p : MessagePart) : List attachmentInfo :=
  match p.body with
  | some b =>
    if b.attachmentId ≠ "" then
      [⟨if (p.filename.data.all isUnicodeSpace) then "attachment" else p.filename,
        b.size, p.mimeType, b.attachmentId⟩]
    else []
  | none => []

example : collectAttachments none = [] := rfl

example :
    collectAttachments (some (.mk "  " "text/plain" (some ⟨"id1", 5⟩)
      [some (.mk "a.txt" "text/plain" (some ⟨"id2", 7⟩) []), none,
       some (.mk "b.txt" "text/plain" none [])])) =
    [⟨"attachment", 5, "text/plain", "id1"⟩, ⟨"a.txt", 7, "text/plain", "id2"⟩] := by
  decide

example :
    collectAttachments (some (.mk "\x0B" "text/plain" (some ⟨"id3", 9⟩) [])) =
    [⟨"attachment", 9, "text/plain", "id3"⟩] := by
  decide

example :
    collectAttachments (some (.mk "\u00A0" "text/plain" (some ⟨"id4", 9⟩) [])) =
    [⟨"attachment", 9, "text/plain", "id4"⟩] := by
  decide

/-! ### Lemmas about ordered parameter mappings -/

/-- Number of parameters named `k` in a mapping. -/
def countKey (ps : List (String × String)) (k : String) : Nat :=
  ps.countP (fun p => p.1 == k)

theorem insertParam_cons_self (rest : List (String × String)) (k v v0 : String) :
    insertParam ((k, v0) :: rest) k v = (k, v) :: rest := by
  simp [insertParam]

theorem insertParam_cons_ne (rest : List (String × String)) (k0 v0 k v : String)
    (hk : k0 ≠ k) :
    insertParam ((k0, v0) :: rest) k v = (k0, v0) :: insertParam rest k v := by
  simp [insertParam, hk]

theorem mem_keys_insertParam (ps : List (String × String)) (k v a : String)
    (h : a ∈ (insertParam ps k v).map Prod.fst) :
    a ∈ ps.map Prod.fst ∨ a = k := by
  induction ps with
  | nil =>
    simp only [insertParam, List.map_cons, List.map_nil, List.mem_singleton] at h
    exact Or.inr h
  | cons p rest ih =>
    obtain ⟨k0, v0⟩ := p
    by_cases hk : k0 = k
    · subst hk
      rw [insertParam_cons_self, List.map_cons, List.mem_cons] at h
      rcases h with h | h
      · exact Or.inr h
      · exact Or.inl (List.mem_cons.mpr (Or.inr h))
    · rw [insertParam_cons_ne rest k0 v0 k v hk, List.map_cons, List.mem_cons] at h
      rcases h with h | h
      · exact Or.inl (List.mem_cons.mpr (Or.inl h))
      · rcases ih h with h2 | h2
        · exact Or.inl (List.mem_cons.mpr (Or.inr h2))
        · exact Or.inr h2

theorem nodup_insertParam (ps : List (String × String)) (k v : String)
    (h : List.Nodup (ps.map Prod.fst)) :
    List.Nodup ((insertParam ps k v).map Prod.fst) := by
  induction ps with
  | nil => simp [insertParam]
  | cons p rest ih =>
    obtain ⟨k0, v0⟩ := p
    simp only [List.map_cons, List.nodup_cons] at h
    obtain ⟨hnotin, hnd⟩ := h
    by_cases hk : k0 = k
    · subst hk
      rw [insertParam_cons_self, List.map_cons, List.nodup_cons]
      exact ⟨hnotin, hnd⟩
    · rw [insertParam_cons_ne rest k0 v0 k v hk, List.map_cons, List.nodup_cons]
      refine ⟨fun hc => ?_, ih hnd⟩
      rcases mem_keys_insertParam rest k v k0 hc with h2 | h2
      · exact hnotin h2
      · exact hk h2

theorem nodup_removeParam (ps : List (String × String)) (k : String)
    (h : List.Nodup (ps.map Prod.fst)) :
    List.Nodup ((removeParam ps k).map Prod.fst) := by
  exact ((List.filter_sublist ps).map Prod.fst).nodup h

theorem countKey_insertParam_self (ps : List (String × String)) (k v : String)
    (h : List.Nodup (ps.map Prod.fst)) :
    countKey (insertParam ps k v) k = 1 := by
  induction ps with
  | nil => simp [insertParam, countKey]
  | cons p rest ih =>
    obtain ⟨k0, v0⟩ := p
    simp only [List.map_cons, List.nodup_cons] at h
    obtain ⟨hnotin, hnd⟩ := h
    by_cases hk : k0 = k
    · subst hk
      have hz : rest.countP (fun p => p.1 == k0) = 0 := by
        rw [List.countP_eq_zero]
        intro p hp
        simp only [beq_iff_eq]
        intro hc
        exact hnotin (by rw [← hc]; exact List.mem_map_of_mem Prod.fst hp)
      rw [insertParam_cons_self, countKey, List.countP_cons]
      simp [hz]
    · have hrest := ih hnd
      simp only [countKey] at hrest
      rw [insertParam_cons_ne rest k0 v0 k v hk, countKey, List.countP_cons]
      simp [hrest, hk]

theorem countKey_insertParam_ne (ps : List (String × String)) (k v k2 : String)
    (hne : k2 ≠ k) :
    countKey (insertParam ps k v) k2 = countKey ps k2 := by
  induction ps with
  | nil => simp [insertParam, countKey, List.countP_cons, Ne.symm hne]
  | cons p rest ih =>
    obtain ⟨k0, v0⟩ := p
    by_cases hk : k0 = k
    · subst hk
      rw [insertParam_cons_self, countKey, countKey, List.countP_cons, List.countP_cons]
    · simp only [countKey] at ih
      rw [insertParam_cons_ne rest k0 v0 k v hk, countKey, countKey,
        List.countP_cons, List.countP_cons, ih]

theorem countKey_removeParam_self (ps : List (String × String)) (k : String) :
    countKey (removeParam ps k) k = 0 := by
  rw [countKey, List.countP_eq_zero]
  intro p hp
  simp only [removeParam, List.mem_filter] at hp
  simpa using hp.2

theorem parseParamsAux_nodup (chunks : List (List Char)) :
    ∀ acc ps, parseParamsAux chunks acc = some ps →
      List.Nodup (acc.map Prod.fst) → List.Nodup (ps.map Prod.fst) := by
  induction chunks with
  | nil =>
    intro acc ps h hacc
    simp only [parseParamsAux] at h
    injection h with h
    subst h
    exact hacc
  | cons c rest ih =>
    intro acc ps h hacc
    simp only [parseParamsAux] at h
    split at h
    · exact absurd h (by simp)
    case _ k v heq =>
      exact ih _ _ h (nodup_insertParam acc k v hacc)

theorem parseParams_nodup (payload : List Char) (ps : List (String × String))
    (h : parseParams payload = some ps) : List.Nodup (ps.map Prod.fst) := by
  exact parseParamsAux_nodup _ _ _ h (by simp)

/-! ### Inversion lemmas for the truncator -/

theorem mapLines_ok_forall (f : String → Except EngineError String) :
    ∀ ls out, mapLines f ls = .ok out →
      List.Forall₂ (fun a b => f a = .ok b) ls out := by
  intro ls
  induction ls with
  | nil =>
    intro out h
    simp only [mapLines] at h
    injection h with h
    subst h
    exact List.Forall₂.nil
  | cons l rest ih =>
    intro out h
    simp only [mapLines] at h
    split at h
    · exact absurd h (by simp)
    case _ l2 hl =>
      split at h
      · exact absurd h (by simp)
      case _ ls2 hls =>
        injection h with h
        subst h
        exact List.Forall₂.cons hl (ih _ hls)

theorem truncateLine_rrule (untilVal line outl : String)
    (h : truncateLine untilVal line = .ok outl)
    (hr : isRRuleLine line = true) :
    ∃ ps, parseParams (line.data.drop 6) = some ps ∧
      outl = "RRULE:" ++
        renderParams (insertParam (removeParam ps "COUNT") "UNTIL" untilVal) := by
  unfold truncateLine at h
  rw [if_pos hr] at h
  split at h
  · exact absurd h (by simp)
  case _ ps hps =>
    injection h with h
    exact ⟨ps, hps, h.symm⟩

theorem truncateLine_other (untilVal line outl : String)
    (h : truncateLine untilVal line = .ok outl)
    (hr : isRRuleLine line = false) : outl = line := by
  unfold truncateLine at h
  rw [if_neg (by simp [hr])] at h
  injection h with h
  exact h.symm

theorem truncateRecurrence_ok (lines : List String) (cutoff : String)
    (out : List String) (h : truncateRecurrence lines cutoff = .ok out) :
    ∃ untilVal, recurrenceUntil cutoff = .ok untilVal ∧
      mapLines (truncateLine untilVal) lines = .ok out := by
  unfold truncateRecurrence at h
  split at h
  · exact absurd h (by simp)
  case _ untilVal hu => exact ⟨untilVal, hu, h⟩

theorem recurrenceUntil_ok (tok untilVal : String)
    (h : recurrenceUntil tok = .ok untilVal) :
    ∃ ts, parse tok = .ok ts ∧ untilVal = toUntilText ts := by
  unfold recurrenceUntil at h
  cases hp : parse tok with
  | error e => rw [hp] at h; exact absurd h (by simp [Except.map])
  | ok ts =>
    rw [hp] at h
    simp only [Except.map] at h
    injection h with h
    exact ⟨ts, rfl, h.symm⟩

/-! ### Inversion lemmas for `parse` -/

theorem parse_dateOnly_inv (tok : String) (y m d : Nat)
    (h : parse tok = .ok (.dateOnly y m d)) :
    parseDate tok.data = some (y, m, d) := by
  unfold parse at h
  split at h
  case _ a b c heq =>
    injection h with h
    injection h with e1 e2 e3
    subst e1; subst e2; subst e3
    exact heq
  case _ heq =>
    split at h
    case _ a b c hh2 mi2 ss2 off2 heq2 =>
      injection h with h
      exact absurd h (by simp)
    case _ => exact absurd h (by simp)

theorem parse_zoned_inv (tok : String) (y m d hh mi ss : Nat) (off : Int)
    (h : parse tok = .ok (.zoned y m d hh mi ss off)) :
    parseDateTime tok.data = some (y, m, d, hh, mi, ss, off) := by
  unfold parse at h
  split at h
  case _ a b c heq =>
    injection h with h
    exact absurd h (by simp)
  case _ heq =>
    split at h
    case _ a b c hh2 mi2 ss2 off2 heq2 =>
      injection h with h
      injection h with e1 e2 e3 e4 e5 e6 e7
      subst e1; subst e2; subst e3; subst e4; subst e5; subst e6; subst e7
      exact heq2
    case _ => exact absurd h (by simp)

/-- Field bounds guaranteed by a successful date-only parse. -/
theorem parse_dateOnly_valid (tok : String) (y m d : Nat)
    (h : parse tok = .ok (.dateOnly y m d)) :
    ValidDate (y, m, d) ∧ y ≤ 9999 :=
  parseDate_valid tok.data y m d (parse_dateOnly_inv tok y m d h)

/-- Field bounds guaranteed by a successful zoned parse. -/
theorem parse_zoned_valid (tok : String) (y m d hh mi ss : Nat) (off : Int)
    (h : parse tok = .ok (.zoned y m d hh mi ss off)) :
    ValidDate (y, m, d) ∧ y ≤ 9999 ∧ hh ≤ 23 ∧ mi ≤ 59 ∧ ss ≤ 59 ∧
      -1439 ≤ off ∧ off ≤ 1439 := by
  have := parseDateTime_valid tok.data y m d hh mi ss off
    (parse_zoned_inv tok y m d hh mi ss off h)
  tauto

/-! ### Reduction lemmas for the UNTIL semantics -/

theorem untilAdmits_zoned (y m d hh mi ss : Nat) (off : Int) (occ : UtcDateTime) :
    untilAdmits (untilTimestamp (.zoned y m d hh mi ss off)) occ =
      decide (utcSeconds occ ≤ utcSeconds (normalizeZoned y m d hh mi ss off)) := rfl

theorem cutoffLE_zoned (y m d hh mi ss : Nat) (off : Int) (occ : UtcDateTime) :
    cutoffLE (.zoned y m d hh mi ss off) occ =
      decide (utcSeconds (normalizeZoned y m d hh mi ss off) ≤ utcSeconds occ) := rfl

theorem cutoffLT_zoned (y m d hh mi ss : Nat) (off : Int) (occ : UtcDateTime) :
    cutoffLT (.zoned y m d hh mi ss off) occ =
      decide (utcSeconds (normalizeZoned y m d hh mi ss off) < utcSeconds occ) := rfl

theorem untilAdmits_dateOnly (y m d py pm pd : Nat)
    (he : predDate (y, m, d) = (py, pm, pd)) (occ : UtcDateTime) :
    untilAdmits (untilTimestamp (.dateOnly y m d)) occ =
      decide (dayNumber (occ.year, occ.month, occ.day) ≤ dayNumber (py, pm, pd)) := by
  simp only [untilTimestamp]
  rw [he]
  rfl

/-! ### Claim theorems -/

/-- C8: `parse(token)` fails (with `MalformedTimestamp` carrying the raw
token) exactly when the token matches neither the bare-date pattern nor the
RFC-3339 pattern; in particular an RFC-3339 date-time without an explicit
offset is rejected as malformed. -/
theorem claim_C8 :
    (∀ tok : String,
      parse tok = .error (.malformedTimestamp tok) ↔
        (parseDate tok.data = none ∧ parseDateTime tok.data = none)) ∧
    parse "2025-01-02T10:00:00" =
      .error (.malformedTimestamp "2025-01-02T10:00:00") := by
  refine ⟨fun tok => ?_, rfl⟩
  unfold parse
  cases hd : parseDate tok.data with
  | some v =>
    obtain ⟨a, b, c⟩ := v
    simp
  | none =>
    cases hz : parseDateTime tok.data with
    | some v =>
      obtain ⟨a, b, c, e, f, g, o⟩ := v
      simp
    | none => simp

/-- C2: for every date-only cutoff token (away from the calendar's zero
point 0000-01-01), `recurrenceUntil` returns the 8-digit compact date that
is exactly one calendar day before the cutoff date. -/
theorem claim_C2 (tok : String) (y m d : Nat)
    (hp : parse tok = .ok (.dateOnly y m d))
    (h0 : ¬(y = 0 ∧ m = 1 ∧ d = 1)) :
    ∃ py pm pd, predDate (y, m, d) = (py, pm, pd) ∧
      recurrenceUntil tok = .ok (renderCompactDate py pm pd) ∧
      (renderCompactDate py pm pd).length = 8 ∧
      ValidDate (py, pm, pd) ∧
      dayNumber (py, pm, pd) + 1 = dayNumber (y, m, d) := by
  obtain ⟨hv, hy⟩ := parse_dateOnly_valid tok y m d hp
  obtain ⟨py, pm, pd, he⟩ : ∃ a b c, predDate (y, m, d) = (a, b, c) :=
    ⟨_, _, _, rfl⟩
  refine ⟨py, pm, pd, he, ?_, rfl, ?_, ?_⟩
  · rw [recurrenceUntil, hp]
    simp only [Except.map]
    have hu : untilTimestamp (.dateOnly y m d) = .dateOnly py pm pd := by
      simp only [untilTimestamp]
      rw [he]
    have : toUntilText (.dateOnly y m d) = renderCompactDate py pm pd := by
      unfold toUntilText
      rw [hu]
    rw [this]
  · have := validDate_predDate (y, m, d) hv
    rwa [he] at this
  · have := dayNumber_predDate (y, m, d) hv (by
      intro hc
      rw [Prod.mk.injEq, Prod.mk.injEq] at hc
      exact h0 ⟨hc.1, hc.2.1, hc.2.2⟩)
    rwa [he] at this

/-- C2 witness: the spec's concrete case `recurrenceUntil("2025-01-02") =
"20250101"`. -/
theorem claim_C2_witness :
    (∃ py pm pd, predDate (2025, 1, 2) = (py, pm, pd) ∧
      recurrenceUntil "2025-01-02" = .ok (renderCompactDate py pm pd) ∧
      (renderCompactDate py pm pd).length = 8 ∧
      ValidDate (py, pm, pd) ∧
      dayNumber (py, pm, pd) + 1 = dayNumber (2025, 1, 2)) ∧
    recurrenceUntil "2025-01-02" = .ok "20250101" :=
  ⟨claim_C2 "2025-01-02" 2025 1 2 rfl (by decide), rfl⟩

/-- C3: for every zoned cutoff token, `recurrenceUntil` returns the cutoff
instant normalized to UTC (the absolute second count is unchanged by the
normalization), rendered compact at seconds precision with a trailing
literal `Z`, with no day subtracted. -/
theorem claim_C3 (tok : String) (y m d hh mi ss : Nat) (off : Int)
    (hp : parse tok = .ok (.zoned y m d hh mi ss off))
    (h0 : ¬(y = 0 ∧ m = 1 ∧ d = 1)) :
    ∃ u, normalizeZoned y m d hh mi ss off = u ∧
      recurrenceUntil tok =
        .ok (renderCompactDate u.year u.month u.day ++ "T" ++
          pad2 u.hour ++ pad2 u.minute ++ pad2 u.second ++ "Z") ∧
      (utcSeconds u : Int) = zonedSecondsOf y m d hh mi ss off := by
  obtain ⟨hv, hy, hhh, hmi, hss, ho1, ho2⟩ := parse_zoned_valid _ _ _ _ _ _ _ _ hp
  refine ⟨normalizeZoned y m d hh mi ss off, rfl, ?_, ?_⟩
  · rw [recurrenceUntil, hp]
    rfl
  · exact utcSeconds_normalizeZoned y m d hh mi ss off hv hhh hmi hss ho1 ho2 h0

/-- C3 witness: the spec's concrete case for
`recurrenceUntil("2025-01-02T10:00:00Z")`, whose value `20250102T100000Z`
has prefix `20250102` and suffix `Z`. -/
theorem claim_C3_witness :
    (∃ u, normalizeZoned 2025 1 2 10 0 0 0 = u ∧
      recurrenceUntil "2025-01-02T10:00:00Z" =
        .ok (renderCompactDate u.year u.month u.day ++ "T" ++
          pad2 u.hour ++ pad2 u.minute ++ pad2 u.second ++ "Z") ∧
      (utcSeconds u : Int) = zonedSecondsOf 2025 1 2 10 0 0 0) ∧
    recurrenceUntil "2025-01-02T10:00:00Z" = .ok "20250102T100000Z" :=
  ⟨claim_C3 "2025-01-02T10:00:00Z" 2025 1 2 10 0 0 0 rfl (by decide), rfl⟩

/-- C6: `originalStartRange` returns a window `[min, max)` rendered as
RFC-3339 UTC instants; for a zoned token, `min` is the token normalized to
UTC (same absolute second count) and `max` is exactly one second later;
for a date-only token, `min` is the date's midnight and `max` the next
day's midnight, 86400 seconds later. -/
theorem claim_C6 :
    (∀ (tok : String) (y m d hh mi ss : Nat) (off : Int),
      parse tok = .ok (.zoned y m d hh mi ss off) →
      ¬(y = 0 ∧ m = 1 ∧ d = 1) →
      ∃ u, normalizeZoned y m d hh mi ss off = u ∧
        originalStartRange tok = .ok (renderRFC u, renderRFC (succSecond u)) ∧
        utcSeconds (succSecond u) = utcSeconds u + 1 ∧
        (utcSeconds u : Int) = zonedSecondsOf y m d hh mi ss off) ∧
    (∀ (tok : String) (y m d : Nat),
      parse tok = .ok (.dateOnly y m d) →
      ∃ ny nm nd, nextDate (y, m, d) = (ny, nm, nd) ∧
        originalStartRange tok =
          .ok (renderRFC ⟨y, m, d, 0, 0, 0⟩, renderRFC ⟨ny, nm, nd, 0, 0, 0⟩) ∧
        utcSeconds ⟨ny, nm, nd, 0, 0, 0⟩ = utcSeconds ⟨y, m, d, 0, 0, 0⟩ + 86400) := by
  constructor
  · intro tok y m d hh mi ss off hp h0
    obtain ⟨hv, hy, hhh, hmi, hss, ho1, ho2⟩ := parse_zoned_valid _ _ _ _ _ _ _ _ hp
    refine ⟨normalizeZoned y m d hh mi ss off, rfl, ?_, ?_, ?_⟩
    · rw [originalStartRange, hp]
    · exact utcSeconds_succSecond _
        (validUtc_normalizeZoned y m d hh mi ss off hv hhh hmi hss ho1 ho2)
    · exact utcSeconds_normalizeZoned y m d hh mi ss off hv hhh hmi hss ho1 ho2 h0
  · intro tok y m d hp
    obtain ⟨hv, hy⟩ := parse_dateOnly_valid tok y m d hp
    obtain ⟨ny, nm, nd, he⟩ : ∃ a b c, nextDate (y, m, d) = (a, b, c) :=
      ⟨_, _, _, rfl⟩
    have hn := dayNumber_nextDate (y, m, d) hv
    rw [he] at hn
    refine ⟨ny, nm, nd, he, ?_, ?_⟩
    · rw [originalStartRange, hp]
      dsimp only
      rw [he, withTod_def]
    · rw [utcSeconds_def, utcSeconds_def]
      omega

/-- C6 witness: both branches at the spec's concrete tokens. -/
theorem claim_C6_witness :
    (∃ u, normalizeZoned 2025 1 2 10 0 0 0 = u ∧
      originalStartRange "2025-01-02T10:00:00Z" =
        .ok (renderRFC u, renderRFC (succSecond u)) ∧
      utcSeconds (succSecond u) = utcSeconds u + 1 ∧
      (utcSeconds u : Int) = zonedSecondsOf 2025 1 2 10 0 0 0) ∧
    (∃ ny nm nd, nextDate (2025, 1, 2) = (ny, nm, nd) ∧
      originalStartRange "2025-01-02" =
        .ok (renderRFC ⟨2025, 1, 2, 0, 0, 0⟩, renderRFC ⟨ny, nm, nd, 0, 0, 0⟩) ∧
      utcSeconds ⟨ny, nm, nd, 0, 0, 0⟩ = utcSeconds ⟨2025, 1, 2, 0, 0, 0⟩ + 86400) :=
  ⟨claim_C6.1 "2025-01-02T10:00:00Z" 2025 1 2 10 0 0 0 rfl (by decide),
   claim_C6.2 "2025-01-02" 2025 1 2 rfl⟩

/-- C5: on success, `truncateRecurrence` returns a set of the same length
in which every line whose keyword is not `RRULE` is byte-identical to the
corresponding input line. -/
theorem claim_C5 (lines : List String) (cutoff : String) (out : List String)
    (h : truncateRecurrence lines cutoff = .ok out) :
    out.length = lines.length ∧
    List.Forall₂ (fun lin outl => isRRuleLine lin = false → outl = lin)
      lines out := by
  obtain ⟨untilVal, hu, hm⟩ := truncateRecurrence_ok lines cutoff out h
  have hf := mapLines_ok_forall _ _ _ hm
  constructor
  · exact hf.length_eq.symm
  · exact hf.imp fun a b hab hr => truncateLine_other _ a b hab hr

/-- C5 witness: the test vector — the `EXDATE` line is returned
byte-identical. -/
theorem claim_C5_witness :
    ["RRULE:FREQ=DAILY;UNTIL=20250105T100000Z", "EXDATE:20250103T100000Z"].length =
      ["RRULE:FREQ=DAILY;COUNT=10", "EXDATE:20250103T100000Z"].length ∧
    List.Forall₂ (fun lin outl => isRRuleLine lin = false → outl = lin)
      ["RRULE:FREQ=DAILY;COUNT=10", "EXDATE:20250103T100000Z"]
      ["RRULE:FREQ=DAILY;UNTIL=20250105T100000Z", "EXDATE:20250103T100000Z"] :=
  claim_C5 ["RRULE:FREQ=DAILY;COUNT=10", "EXDATE:20250103T100000Z"]
    "2025-01-05T10:00:00Z"
    ["RRULE:FREQ=DAILY;UNTIL=20250105T100000Z", "EXDATE:20250103T100000Z"] rfl

/-- C4: on success, every `RRULE` input line (in particular one containing
a `COUNT` parameter) is replaced by the reserialization of a parameter
mapping that contains no `COUNT` parameter and exactly one `UNTIL`
parameter. -/
theorem claim_C4 (lines : List String) (cutoff : String) (out : List String)
    (untilVal : String)
    (h : truncateRecurrence lines cutoff = .ok out)
    (hu : recurrenceUntil cutoff = .ok untilVal) :
    List.Forall₂ (fun lin outl => ∀ ps,
      isRRuleLine lin = true →
      parseParams (lin.data.drop 6) = some ps →
      0 < countKey ps "COUNT" →
      outl = "RRULE:" ++
        renderParams (insertParam (removeParam ps "COUNT") "UNTIL" untilVal) ∧
      countKey (insertParam (removeParam ps "COUNT") "UNTIL" untilVal) "COUNT" = 0 ∧
      countKey (insertParam (removeParam ps "COUNT") "UNTIL" untilVal) "UNTIL" = 1)
      lines out := by
  obtain ⟨untilVal2, hu2, hm⟩ := truncateRecurrence_ok lines cutoff out h
  rw [hu] at hu2
  injection hu2 with hu2
  subst hu2
  have hf := mapLines_ok_forall _ _ _ hm
  refine hf.imp fun lin outl hline => ?_
  intro ps hr hps _hc
  obtain ⟨ps2, hps2, hout⟩ := truncateLine_rrule _ _ _ hline hr
  rw [hps] at hps2
  injection hps2 with e
  subst e
  have hnd := parseParams_nodup _ _ hps
  have hnd2 := nodup_removeParam ps "COUNT" hnd
  refine ⟨hout, ?_, ?_⟩
  · rw [countKey_insertParam_ne _ _ _ _ (by decide)]
    exact countKey_removeParam_self ps "COUNT"
  · exact countKey_insertParam_self _ _ _ hnd2

/-- C4 witness: the test vector, where the `COUNT=10` rule becomes a rule
with one `UNTIL` and no `COUNT`. -/
theorem claim_C4_witness :
    List.Forall₂ (fun lin outl => ∀ ps,
      isRRuleLine lin = true →
      parseParams (lin.data.drop 6) = some ps →
      0 < countKey ps "COUNT" →
      outl = "RRULE:" ++
        renderParams (insertParam (removeParam ps "COUNT") "UNTIL"
          "20250105T100000Z") ∧
      countKey (insertParam (removeParam ps "COUNT") "UNTIL"
        "20250105T100000Z") "COUNT" = 0 ∧
      countKey (insertParam (removeParam ps "COUNT") "UNTIL"
        "20250105T100000Z") "UNTIL" = 1)
      ["RRULE:FREQ=DAILY;COUNT=10", "EXDATE:20250103T100000Z"]
      ["RRULE:FREQ=DAILY;UNTIL=20250105T100000Z", "EXDATE:20250103T100000Z"] :=
  claim_C4 ["RRULE:FREQ=DAILY;COUNT=10", "EXDATE:20250103T100000Z"]
    "2025-01-05T10:00:00Z"
    ["RRULE:FREQ=DAILY;UNTIL=20250105T100000Z", "EXDATE:20250103T100000Z"]
    "20250105T100000Z" rfl rfl

/-- C1 counterexample: for the zoned cutoff `2025-01-05T10:00:00Z`, the
truncated rule carries `UNTIL=20250105T100000Z`, and under the spec's own
recurrence semantics (`UNTIL` is an inclusive bound) that bound still
admits the occurrence at the cutoff instant itself — so the occurrence
identified by the cutoff token is not excluded, contradicting the claim. -/
theorem claim_C1_counterexample :
    truncateRecurrence ["RRULE:FREQ=DAILY;COUNT=10"] "2025-01-05T10:00:00Z" =
      .ok ["RRULE:FREQ=DAILY;UNTIL=20250105T100000Z"] ∧
    parse "2025-01-05T10:00:00Z" = .ok (.zoned 2025 1 5 10 0 0 0) ∧
    cutoffLE (.zoned 2025 1 5 10 0 0 0) ⟨2025, 1, 5, 10, 0, 0⟩ = true ∧
    untilAdmits (untilTimestamp (.zoned 2025 1 5 10 0 0 0))
      ⟨2025, 1, 5, 10, 0, 0⟩ = true :=
  ⟨rfl, rfl, by decide, by decide⟩

/-- C1 (amended): on success every `RRULE` line is rebound with the
`UNTIL` value derived from the cutoff; that bound excludes every occurrence
strictly after the cutoff, and for a date-only cutoff it also excludes the
cutoff occurrence itself — but for a zoned cutoff the occurrence at the
cutoff instant is still admitted by the inclusive bound. -/
theorem claim_C1_amended (lines : List String) (tok : String)
    (out : List String) (cut : CalendarTimestamp)
    (h : truncateRecurrence lines tok = .ok out)
    (hp : parse tok = .ok cut)
    (h0 : ∀ y m d, cut = .dateOnly y m d → ¬(y = 0 ∧ m = 1 ∧ d = 1)) :
    List.Forall₂ (fun lin outl => isRRuleLine lin = true →
      ∃ ps, parseParams (lin.data.drop 6) = some ps ∧
        outl = "RRULE:" ++ renderParams
          (insertParam (removeParam ps "COUNT") "UNTIL" (toUntilText cut)))
      lines out ∧
    (∀ occ, cutoffLT cut occ = true →
      untilAdmits (untilTimestamp cut) occ = false) ∧
    (∀ y m d, cut = .dateOnly y m d →
      ∀ occ, cutoffLE cut occ = true →
        untilAdmits (untilTimestamp cut) occ = false) ∧
    (∀ y m d hh mi ss off, cut = .zoned y m d hh mi ss off →
      untilAdmits (untilTimestamp cut) (normalizeZoned y m d hh mi ss off) = true) := by
  obtain ⟨untilVal, hu, hm⟩ := truncateRecurrence_ok lines tok out h
  obtain ⟨ts, hts, huv⟩ := recurrenceUntil_ok tok untilVal hu
  rw [hp] at hts
  injection hts with hts
  subst hts
  subst huv
  have hf := mapLines_ok_forall _ _ _ hm
  refine ⟨?_, ?_, ?_, ?_⟩
  · exact hf.imp fun lin outl hline hr => truncateLine_rrule _ _ _ hline hr
  · intro occ hlt
    cases cut with
    | dateOnly y m d =>
      obtain ⟨hv, hy⟩ := parse_dateOnly_valid tok y m d hp
      obtain ⟨py, pm, pd, he⟩ : ∃ a b c, predDate (y, m, d) = (a, b, c) :=
        ⟨_, _, _, rfl⟩
      have hdp := dayNumber_predDate (y, m, d) hv (by
        intro hc
        rw [Prod.mk.injEq, Prod.mk.injEq] at hc
        exact h0 y m d rfl ⟨hc.1, hc.2.1, hc.2.2⟩)
      rw [he] at hdp
      rw [untilAdmits_dateOnly y m d py pm pd he]
      simp only [cutoffLT, decide_eq_true_eq] at hlt
      simp only [decide_eq_false_iff_not]
      omega
    | zoned y m d hh mi ss off =>
      rw [untilAdmits_zoned]
      rw [cutoffLT_zoned] at hlt
      simp only [decide_eq_true_eq] at hlt
      simp only [decide_eq_false_iff_not]
      omega
  · intro y m d hc occ hle
    subst hc
    obtain ⟨hv, hy⟩ := parse_dateOnly_valid tok y m d hp
    obtain ⟨py, pm, pd, he⟩ : ∃ a b c, predDate (y, m, d) = (a, b, c) :=
      ⟨_, _, _, rfl⟩
    have hdp := dayNumber_predDate (y, m, d) hv (by
      intro hcc
      rw [Prod.mk.injEq, Prod.mk.injEq] at hcc
      exact h0 y m d rfl ⟨hcc.1, hcc.2.1, hcc.2.2⟩)
    rw [he] at hdp
    rw [untilAdmits_dateOnly y m d py pm pd he]
    simp only [cutoffLE, decide_eq_true_eq] at hle
    simp only [decide_eq_false_iff_not]
    omega
  · intro y m d hh mi ss off hc
    subst hc
    rw [untilAdmits_zoned]
    simp

/-- C1 (amended) witness: the date-only branch at the spec's concrete
token `2025-01-02` on the test's rule set. -/
theorem claim_C1_amended_witness :
    (List.Forall₂ (fun lin outl => isRRuleLine lin = true →
      ∃ ps, parseParams (lin.data.drop 6) = some ps ∧
        outl = "RRULE:" ++ renderParams
          (insertParam (removeParam ps "COUNT") "UNTIL"
            (toUntilText (.dateOnly 2025 1 2))))
      ["RRULE:FREQ=DAILY;COUNT=10", "EXDATE:20250103T100000Z"]
      ["RRULE:FREQ=DAILY;UNTIL=20250101", "EXDATE:20250103T100000Z"] ∧
    (∀ occ, cutoffLT (.dateOnly 2025 1 2) occ = true →
      untilAdmits (untilTimestamp (.dateOnly 2025 1 2)) occ = false) ∧
    (∀ y m d, CalendarTimestamp.dateOnly 2025 1 2 = .dateOnly y m d →
      ∀ occ, cutoffLE (.dateOnly 2025 1 2) occ = true →
        untilAdmits (untilTimestamp (.dateOnly 2025 1 2)) occ = false) ∧
    (∀ y m d hh mi ss off,
      CalendarTimestamp.dateOnly 2025 1 2 = .zoned y m d hh mi ss off →
      untilAdmits (untilTimestamp (.dateOnly 2025 1 2))
        (normalizeZoned y m d hh mi ss off) = true)) :=
  claim_C1_amended
    ["RRULE:FREQ=DAILY;COUNT=10", "EXDATE:20250103T100000Z"] "2025-01-02"
    ["RRULE:FREQ=DAILY;UNTIL=20250101", "EXDATE:20250103T100000Z"]
    (.dateOnly 2025 1 2) rfl rfl
    (by intro y m d hc; injection hc with e1 e2 e3; subst e1; subst e2; subst e3; decide)

/-- C7: when either side is date-only, `matchesOriginalStart` compares the
event's effective original-start and the token by calendar-date equality
(`dateOnlyComparable` on both sides). -/
theorem claim_C7 (ev : Event) (tok : String) (a b : CalendarTimestamp)
    (hne : effectiveStartToken ev ≠ "")
    (hea : parse (effectiveStartToken ev) = .ok a)
    (htb : parse tok = .ok b)
    (hdo : isDateOnlyTs a = true ∨ isDateOnlyTs b = true) :
    (matchesOriginalStart ev tok = true ↔
      dateOnlyComparable a = dateOnlyComparable b) := by
  have hor : (isDateOnlyTs a || isDateOnlyTs b) = true := by
    rcases hdo with h | h <;> simp [h]
  unfold matchesOriginalStart
  dsimp only
  rw [if_neg hne, hea, htb]
  dsimp only
  rw [if_pos hor]
  exact beq_iff_eq

/-- C7 witness: the test's event (zoned original start
`2025-01-02T10:00:00Z`) matches the date-only token `2025-01-02`. -/
theorem claim_C7_witness :
    matchesOriginalStart
      ⟨some ⟨"", "2025-01-02T10:00:00Z"⟩, some ⟨"2025-01-02", ""⟩⟩
      "2025-01-02" = true :=
  (claim_C7 ⟨some ⟨"", "2025-01-02T10:00:00Z"⟩, some ⟨"2025-01-02", ""⟩⟩
    "2025-01-02" (.zoned 2025 1 2 10 0 0 0) (.dateOnly 2025 1 2)
    (by decide) rfl rfl (Or.inr rfl)).mpr (by decide)

/-- C9: `matchesOriginalStart` is total (it returns a `Bool`, never an
error) and returns `false` when the event carries no usable start
information — neither a populated original-start override nor a populated
start field. -/
theorem claim_C9 (ev : Event) (tok : String)
    (h1 : ∀ o, ev.originalStartTime = some o → edtToken o = "")
    (h2 : ∀ s, ev.start = some s → edtToken s = "") :
    matchesOriginalStart ev tok = false := by
  have hempty : effectiveStartToken ev = "" := by
    unfold effectiveStartToken
    cases ho : ev.originalStartTime with
    | none =>
      dsimp only
      rw [if_neg (by simp)]
      cases hs : ev.start with
      | none => rfl
      | some s => exact h2 s hs
    | some o =>
      have hto := h1 o ho
      dsimp only
      rw [hto, if_neg (by simp)]
      cases hs : ev.start with
      | none => rfl
      | some s => exact h2 s hs
  unfold matchesOriginalStart
  dsimp only
  rw [hempty, if_pos rfl]

/-- C9 witness: an event with no start information at all. -/
theorem claim_C9_witness :
    matchesOriginalStart ⟨none, none⟩ "2025-01-02" = false :=
  claim_C9 ⟨none, none⟩ "2025-01-02"
    (fun o h => Option.noConfusion h) (fun s h => Option.noConfusion h)

/-- The collector equals the filter-map of the depth-first pre-order. -/
theorem collectAttachments_eq_preorder (op : Option MessagePart) :
    collectAttachments op = ((preorderOpt op).map partEntry).flatten := by
  refine collectAttachments.induct
    (fun op => collectAttachments op = ((preorderOpt op).map partEntry).flatten)
    (fun p => collectPart p = ((preorderPart p).map partEntry).flatten)
    (fun l => collectParts l = ((preorderParts l).map partEntry).flatten)
    ?_ ?_ ?_ ?_ ?_ op
  · intro f mt b parts ih
    simp [collectPart, preorderPart, partEntry, MessagePart.body,
      MessagePart.filename, MessagePart.mimeType, ih]
  · simp [collectParts, preorderParts]
  · intro p rest ih1 ih2
    simp [collectParts, preorderParts, ih1, ih2]
  · simp [collectAttachments, preorderOpt]
  · intro p ih
    simp [collectAttachments, preorderOpt, ih]

/-- C10: `collectAttachments` is total, returns nil for a nil part, and
equals the concatenation, over the depth-first pre-order of the part tree
(a part before its sub-parts, sub-parts in list order), of each part's
entries — exactly one entry per part whose body carries a non-empty
attachment id, with `attachment` substituted for an empty-or-whitespace
filename. -/
theorem claim_C10 :
    collectAttachments none = ([] : List attachmentInfo) ∧
    ∀ op, collectAttachments op = ((preorderOpt op).map partEntry).flatten :=
  ⟨rfl, collectAttachments_eq_preorder⟩
